import Mathlib

/-!
# Crafthex: asset path resolver, executable-location probe and greedy text wrapper

A shallow embedding of `src/util.c` (`path_join`, `resolve_asset_path`, `tokenize`,
`char_width`, `string_width`, `wrap`) and `src/platform.c` (`platform_get_exe_dir`).

Conventions of the embedding:

* a C string is the list of its bytes before the terminating NUL (`CStr`);
* a pointer that may be `NULL` is an `Option`;
* a caller-supplied output buffer is passed as its previous content and returned as its
  new content;
* `size_t` is 64 bits wide and its arithmetic is taken modulo `2 ^ 64`;
* `int` quantities (widths, counts) are integers; the text handled is far below the
  size at which a pixel width or a line count leaves the range of `int`;
* `PATH_MAX` comes from `<limits.h>` and is a parameter.
-/

namespace Crafthex

/-! ## Strings -/

/-- A C string: its bytes up to, and without, the terminating NUL. -/
abbrev CStr := List Nat

/-- The bytes of a string literal. -/
def bytes (s : String) : CStr := s.toList.map Char.toNat

/-- The text `snprintf(out, out_size, fmt, ...)` leaves in `out` when `out_size > 0`:
the formatted text cut to `out_size - 1` bytes. -/
def snprintf (out_size : Nat) (text : CStr) : CStr := text.take (out_size - 1)

/-- The text `strncat(dest, src, n)` leaves in `dest`: at most `n` bytes of `src` are appended. -/
def strncat (dest src : CStr) (n : Nat) : CStr := dest ++ src.take n

/-- The index `strrchr(s, c)` points at: the last occurrence of `c`, if there is one. -/
def strrchr : CStr → Nat → Option Nat
  | [], _ => none
  | x :: xs, c =>
    match strrchr xs c with
    | some i => some (i + 1)
    | none => if x = c then some 0 else none

/-- The length `strspn(s, accept)` of the initial run of bytes that are in `accept`. -/
def strspn (s accept : CStr) : Nat := (s.takeWhile (fun c => accept.contains c)).length

/-- The length `strcspn(s, reject)` of the initial run of bytes that are not in `reject`. -/
def strcspn (s reject : CStr) : Nat := (s.takeWhile (fun c => !reject.contains c)).length

/-! ## `util.c`: path joining and asset resolution -/

/-- The function `path_join(out, out_size, a, b)`: the content of `out` afterwards. -/
def path_join (out : Option CStr) (out_size : Nat) (a b : Option CStr) : Option CStr :=
  match out with
  | none => none
  | some old =>
    if out_size = 0 then some old
    else
      let a := a.getD []
      let b := b.getD []
      let alen := a.length
      let need_slash := decide (alen > 0) && (a.getD (alen - 1) 0 != 47)
      if need_slash then some (snprintf out_size (a ++ [47] ++ b))
      else some (snprintf out_size (a ++ b))

/-- What the resolver queries: the readability check `platform_file_readable`, the value
of `getenv("CRAFTHEX_ASSET_DIR")`, and the outcome of `get_exe_dir(exe_dir, PATH_MAX)`
(`none` when it returns 0, the directory it wrote when it returns 1). -/
structure Host where
  file_exists : CStr → Bool
  asset_root : Option CStr
  exe_dir : Option CStr

/-- The queries `resolve_asset_path` makes, in the order it makes them. -/
inductive Call where
  | access (path : CStr)
  | getenv
  | get_exe_dir
  deriving DecidableEq, Repr

/-- The outcome of `resolve_asset_path`: return value, content of `out`, queries made. -/
structure Resolution where
  ret : Int
  out : Option CStr
  calls : List Call
  deriving DecidableEq, Repr

/-- The array `prefixes` of `resolve_asset_path`. -/
def prefixes : List CStr := [bytes "", bytes "/..", bytes "/../.."]

/-- The `for` loop of `resolve_asset_path` over the remaining `prefixes`, followed by the
function's last two statements when the loop runs out. -/
def resolve_exe_loop (PATH_MAX : Nat) (file_exists : CStr → Bool) (exe_dir inp : CStr)
    (out_size : Nat) : List CStr → List Call → Resolution
  | [], calls => ⟨0, some [], calls⟩
  | p :: ps, calls =>
    let base := snprintf PATH_MAX (exe_dir ++ p)
    let candidate := (path_join (some []) PATH_MAX (some base) (some inp)).getD []
    if file_exists candidate then
      ⟨1, some (snprintf out_size candidate), calls ++ [Call.access candidate]⟩
    else
      resolve_exe_loop PATH_MAX file_exists exe_dir inp out_size ps
        (calls ++ [Call.access candidate])

/-- Steps 3 to 5 of `resolve_asset_path`: the probe and the loop over `prefixes`. -/
def resolve_exe (PATH_MAX : Nat) (host : Host) (inp : CStr) (out_size : Nat)
    (calls : List Call) : Resolution :=
  match host.exe_dir with
  | some exe_dir =>
    resolve_exe_loop PATH_MAX host.file_exists exe_dir inp out_size prefixes
      (calls ++ [Call.get_exe_dir])
  | none => ⟨0, some [], calls ++ [Call.get_exe_dir]⟩

/-- The function `resolve_asset_path(in, out, out_size)`: return value, content of `out`
afterwards, and the queries made on the way. -/
def resolve_asset_path (PATH_MAX : Nat) (host : Host) (inp out : Option CStr)
    (out_size : Nat) : Resolution :=
  match inp, out with
  | none, _ => ⟨0, out, []⟩
  | some _, none => ⟨0, none, []⟩
  | some r, some old =>
    if out_size = 0 then ⟨0, some old, []⟩
    else if host.file_exists r then
      ⟨1, some (snprintf out_size r), [Call.access r]⟩
    else
      match host.asset_root with
      | some (c :: cs) =>
        let candidate := (path_join (some []) PATH_MAX (some (c :: cs)) (some r)).getD []
        if host.file_exists candidate then
          ⟨1, some (snprintf out_size candidate),
            [Call.access r, Call.getenv, Call.access candidate]⟩
        else
          resolve_exe PATH_MAX host r out_size
            [Call.access r, Call.getenv, Call.access candidate]
      | _ => resolve_exe PATH_MAX host r out_size [Call.access r, Call.getenv]

/-! ## `platform.c`: the executable-location probe (the branch for neither Windows nor macOS) -/

/-- The call `readlink("/proc/self/exe", buf, bufsiz)`, the link target being `link` (`none` when
the link cannot be read): the return value and the bytes placed in `buf`. -/
def readlink (link : Option CStr) (bufsiz : Nat) : Int × CStr :=
  match link with
  | none => (-1, [])
  | some p => (((p.take bufsiz).length : Nat), p.take bufsiz)

/-- The function `platform_get_exe_dir(out, out_size)`: return value and content of `out`. -/
def platform_get_exe_dir (PATH_MAX : Nat) (link : Option CStr) (out : Option CStr)
    (out_size : Nat) : Int × Option CStr :=
  match out with
  | none => (0, none)
  | some old =>
    if out_size = 0 then (0, some old)
    else
      let (n, exe_path) := readlink link (PATH_MAX - 1)
      if n ≤ 0 then (0, some [])
      else
        match strrchr exe_path 47 with
        | none => (0, some [])
        | some slash => (1, some ((exe_path.take slash).take (out_size - 1)))

/-- The static function `get_exe_dir(out, out_size)` of `util.c`, which forwards to
`platform_get_exe_dir`. -/
def get_exe_dir (PATH_MAX : Nat) (link : Option CStr) (out : Option CStr)
    (out_size : Nat) : Int × Option CStr :=
  platform_get_exe_dir PATH_MAX link out out_size

/-- The `exe_dir` field of the `Host` when the link target is `link`: the outcome of the
call `get_exe_dir(exe_dir, sizeof(exe_dir))` that `resolve_asset_path` makes. -/
def probe (PATH_MAX : Nat) (link : Option CStr) : Option CStr :=
  match get_exe_dir PATH_MAX link (some []) PATH_MAX with
  | (1, some dir) => some dir
  | _ => none

/-! ## `util.c`: tokenizer, glyph widths and the greedy wrapper -/

/-- The function `tokenize(str, delim, &key)`: `none` when it returns `NULL`, otherwise the token it
returns and the string `*key` points at afterwards. The caller passes the string the C
function starts from: `str`, or `*key` when the argument `str` is `NULL`. -/
def tokenize (str delim : CStr) : Option (CStr × CStr) :=
  let str := str.drop (strspn str delim)
  if str = [] then none
  else
    let result := str.take (strcspn str delim)
    let str := str.drop (strcspn str delim)
    if str ≠ [] then some (result, str.drop 1) else some (result, str)

/-- The table `lookup` of `char_width`. -/
def lookup : List Int := [
  0, 0, 0, 0, 0, 0, 0, 0, 0, 0, 0, 0, 0, 0, 0, 0,
  0, 0, 0, 0, 0, 0, 0, 0, 0, 0, 0, 0, 0, 0, 0, 0,
  4, 2, 4, 7, 6, 9, 7, 2, 3, 3, 4, 6, 3, 5, 2, 7,
  6, 3, 6, 6, 6, 6, 6, 6, 6, 6, 2, 3, 5, 6, 5, 7,
  8, 6, 6, 6, 6, 6, 6, 6, 6, 4, 6, 6, 5, 8, 8, 6,
  6, 7, 6, 6, 6, 6, 8,10, 8, 6, 6, 3, 6, 3, 6, 6,
  4, 7, 6, 6, 6, 6, 5, 6, 6, 2, 5, 5, 2, 9, 6, 6,
  6, 6, 6, 6, 5, 6, 6, 6, 6, 6, 6, 4, 2, 5, 7, 0]

/-- The function `char_width(input)`. For a byte outside the 128 entries the C code reads outside the
table; `oob` stands for whatever integer such a read yields. -/
def char_width (oob : Nat → Int) (input : Nat) : Int :=
  if input < 128 then lookup.getD input 0 else oob input

/-- The function `string_width(input)`: the sum of the widths of the bytes. -/
def string_width (oob : Nat → Int) (input : CStr) : Int :=
  input.foldl (fun result c => result + char_width oob c) 0

/-- Conversion of an integer to `size_t`. -/
def size_t (x : Int) : Nat := (x % 2 ^ 64).toNat

/-- The count `max_length - strlen(output) - 1` handed to every `strncat` of `wrap`,
evaluated in `size_t` as C does. -/
def remaining (max_length : Int) (output : CStr) : Nat :=
  size_t ((size_t ((size_t max_length : Int) - output.length) : Int) - 1)

/-- The variables of `wrap` that its loops update. -/
structure WrapState where
  line_width : Int
  line_number : Int
  output : CStr
  deriving DecidableEq, Repr

/-- The first half of the body of the inner loop of `wrap`: the statement
`if (line_width) ...` that places a line break or a space before `token`. -/
def wrap_separator (oob : Nat → Int) (max_width max_length : Int) (st : WrapState)
    (token : CStr) : WrapState :=
  let token_width := string_width oob token
  if st.line_width ≠ 0 then
    if st.line_width + token_width > max_width then
      { line_width := 0
        line_number := st.line_number + 1
        output := strncat st.output [10] (remaining max_length st.output) }
    else
      { st with output := strncat st.output [32] (remaining max_length st.output) }
  else st

/-- The body of the inner loop `while (token)` of `wrap` for one token. -/
def wrap_token (oob : Nat → Int) (max_width max_length : Int) (st : WrapState)
    (token : CStr) : WrapState :=
  let token_width := string_width oob token
  let space_width := char_width oob 32
  let st := wrap_separator oob max_width max_length st token
  { st with
    output := strncat st.output token (remaining max_length st.output)
    line_width := st.line_width + (token_width + space_width) }

/-- The inner loop of `wrap`, started on the string `key2` that `tokenize` is to continue
from. One unit of fuel is spent per call of `tokenize`. -/
def wrap_tokens (oob : Nat → Int) (max_width max_length : Int) :
    Nat → CStr → WrapState → Option WrapState
  | 0, _, _ => none
  | fuel + 1, key2, st =>
    match tokenize key2 [32] with
    | none => some st
    | some (token, key2) =>
      wrap_tokens oob max_width max_length fuel key2
        (wrap_token oob max_width max_length st token)

/-- The outer loop `while (line)` of `wrap`, started on the string `key1` that `tokenize`
is to continue from. One unit of fuel is spent per call of `tokenize`. -/
def wrap_lines (oob : Nat → Int) (max_width max_length : Int) :
    Nat → CStr → Int → CStr → Option (CStr × Int)
  | 0, _, _, _ => none
  | fuel + 1, key1, line_number, output =>
    match tokenize key1 [13, 10] with
    | none => some (output, line_number)
    | some (line, key1) =>
      match wrap_tokens oob max_width max_length (line.length + 1) line
          ⟨0, line_number, output⟩ with
      | none => none
      | some st =>
        wrap_lines oob max_width max_length fuel key1 (st.line_number + 1)
          (strncat st.output [10] (remaining max_length st.output))

/-- The function `wrap(input, max_width, output, max_length)`: the content of `output` and the value
returned. Every call of `tokenize` consumes at least one byte, so `strlen(input) + 1`
calls are always enough. -/
def wrap (oob : Nat → Int) (input : CStr) (max_width max_length : Int) :
    Option (CStr × Int) :=
  wrap_lines oob max_width max_length (input.length + 1) input 0 []

/-! ## Specification-side definitions for the resolver -/

/-- The result of `path_join(a, b)` into a buffer that is large enough to hold the whole result. -/
def joined (a b : CStr) : CStr :=
  (path_join (some []) (a.length + b.length + 2) (some a) (some b)).getD []

/-- The candidate list of the resolution order, for a request `r`. -/
def candidates (host : Host) (r : CStr) : List CStr :=
  [r]
  ++ (match host.asset_root with
      | some env => if env ≠ [] then [joined env r] else []
      | none => [])
  ++ (match host.exe_dir with
      | some exe_dir =>
        [joined exe_dir r, joined (exe_dir ++ bytes "/..") r,
          joined (exe_dir ++ bytes "/../..") r]
      | none => [])

/-- The candidates as `resolve_asset_path` builds them in its `PATH_MAX`-sized buffers. -/
def built_candidates (PATH_MAX : Nat) (host : Host) (r : CStr) : List CStr :=
  [r]
  ++ (match host.asset_root with
      | some env =>
        if env ≠ [] then [(path_join (some []) PATH_MAX (some env) (some r)).getD []] else []
      | none => [])
  ++ (match host.exe_dir with
      | some exe_dir =>
        prefixes.map (fun p =>
          (path_join (some []) PATH_MAX (some (snprintf PATH_MAX (exe_dir ++ p))) (some r)).getD [])
      | none => [])

/-- The paths a list of queries hands to the readability check. -/
def accessed : List Call → List CStr
  | [] => []
  | Call.access path :: cs => path :: accessed cs
  | _ :: cs => accessed cs

/-! ## Specification-side definitions for the wrapper -/

/-- The tokens successive calls of `tokenize` return, with one unit of fuel per call. -/
def tokenize_all (delim : CStr) : Nat → CStr → List CStr
  | 0, _ => []
  | fuel + 1, s =>
    match tokenize s delim with
    | none => []
    | some (t, key) => t :: tokenize_all delim fuel key

/-- All tokens of `s` for the delimiter set `delim`, in order. -/
def tokens (delim s : CStr) : List CStr := tokenize_all delim (s.length + 1) s

/-- The paragraphs of the input: its tokens for the delimiters `"\r\n"`. -/
def paragraphs (input : CStr) : List CStr := tokens [13, 10] input

/-- The words of a paragraph: its tokens for the delimiter `" "`. -/
def words (line : CStr) : List CStr := tokens [32] line

/-- Every byte is a 7-bit code. -/
def seven_bit (s : CStr) : Prop := ∀ c ∈ s, c < 128

instance (s : CStr) : Decidable (seven_bit s) :=
  inferInstanceAs (Decidable (∀ c ∈ s, c < 128))

/-- The text of an output line: its tokens, one space between neighbours. -/
def line_text : List CStr → CStr
  | [] => []
  | [t] => t
  | t :: u :: ts => t ++ [32] ++ line_text (u :: ts)

/-- The text of a list of output lines: every line is followed by a line break. -/
def render : List (List CStr) → CStr
  | [] => []
  | l :: ls => line_text l ++ [10] ++ render ls

/-- The body of the inner loop of `wrap` with plain appends in place of `strncat`. -/
def free_token (oob : Nat → Int) (max_width : Int) (st : WrapState) (token : CStr) :
    WrapState :=
  if st.line_width ≠ 0 then
    if st.line_width + string_width oob token > max_width then
      { line_width := 0 + (string_width oob token + char_width oob 32)
        line_number := st.line_number + 1
        output := st.output ++ [10] ++ token }
    else
      { line_width := st.line_width + (string_width oob token + char_width oob 32)
        line_number := st.line_number
        output := st.output ++ [32] ++ token }
  else
    { line_width := st.line_width + (string_width oob token + char_width oob 32)
      line_number := st.line_number
      output := st.output ++ token }

/-- One round of the outer loop of `wrap` on the paragraph `line`. -/
def wrap_paragraph (oob : Nat → Int) (max_width max_length : Int) (acc : CStr × Int)
    (line : CStr) : CStr × Int :=
  let st := (words line).foldl (wrap_token oob max_width max_length) ⟨0, acc.2, acc.1⟩
  (strncat st.output [10] (remaining max_length st.output), st.line_number + 1)

/-- One round of the outer loop of `wrap` with plain appends in place of `strncat`. -/
def free_paragraph (oob : Nat → Int) (max_width : Int) (acc : CStr × Int) (line : CStr) :
    CStr × Int :=
  let st := (words line).foldl (free_token oob max_width) ⟨0, acc.2, acc.1⟩
  (st.output ++ [10], st.line_number + 1)

/-- The output and the return value of `wrap` when every append is a plain append: what
a buffer without bound receives. -/
def untruncated (oob : Nat → Int) (max_width : Int) (input : CStr) : CStr × Int :=
  (paragraphs input).foldl (free_paragraph oob max_width) ([], 0)

/-- The bytes a list of tokens takes, one separator per token included. -/
def total : List CStr → Nat
  | [] => 0
  | t :: ts => t.length + 1 + total ts

/-- The value of `line_width` once the tokens `cur` are on the current line. -/
def line_width_of (oob : Nat → Int) : List CStr → Int
  | [] => 0
  | t :: ts => string_width oob t + char_width oob 32 + line_width_of oob ts

/-- Greedy packing of the tokens `ts` of a paragraph into lines, `cur` being the tokens
already on the current line. -/
def pack (oob : Nat → Int) (max_width : Int) : List CStr → List CStr → List (List CStr)
  | cur, [] => [cur]
  | cur, t :: ts =>
    if cur ≠ [] ∧ line_width_of oob cur + string_width oob t > max_width then
      cur :: pack oob max_width [t] ts
    else pack oob max_width (cur ++ [t]) ts

/-- The lines of every paragraph of the input, greedily packed. -/
def layout (oob : Nat → Int) (max_width : Int) (input : CStr) : List (List (List CStr)) :=
  (paragraphs input).map (fun p => pack oob max_width [] (words p))

/-! ## Lemmas on strings -/

theorem snprintf_fits {size : Nat} {s : CStr} (h : s.length < size) : snprintf size s = s := by
  unfold snprintf
  exact List.take_of_length_le (by omega)

theorem last_byte (a : CStr) : a.getD (a.length - 1) 0 = a.getLast?.getD 0 := by
  rw [List.getD_eq_getElem?_getD, List.getLast?_eq_getElem?]

theorem need_slash_iff (a : CStr) :
    (decide (a.length > 0) && (a.getD (a.length - 1) 0 != 47)) = true
      ↔ (a ≠ [] ∧ a.getLast? ≠ some 47) := by
  rw [last_byte]
  rcases List.eq_nil_or_concat a with rfl | ⟨l, x, rfl⟩
  · simp
  · simp [List.concat_eq_append]

theorem path_join_eq (old a b : CStr) (size : Nat) (hs : size ≠ 0) :
    path_join (some old) size (some a) (some b)
      = some (snprintf size
          (if a ≠ [] ∧ a.getLast? ≠ some 47 then a ++ [47] ++ b else a ++ b)) := by
  unfold path_join
  simp only [Option.getD_some, if_neg hs, need_slash_iff]
  split <;> rfl

/-- The text `path_join` produces when nothing is cut. -/
theorem joined_eq (a b : CStr) :
    joined a b = if a ≠ [] ∧ a.getLast? ≠ some 47 then a ++ [47] ++ b else a ++ b := by
  unfold joined
  rw [path_join_eq _ _ _ _ (by omega), Option.getD_some]
  apply snprintf_fits
  split <;> simp
  omega

theorem path_join_fits (old a b : CStr) (size : Nat) (h : (joined a b).length < size) :
    path_join (some old) size (some a) (some b) = some (joined a b) := by
  rw [path_join_eq _ _ _ _ (by omega), ← joined_eq, snprintf_fits h]

theorem length_le_joined (a b : CStr) : a.length ≤ (joined a b).length := by
  rw [joined_eq]
  split <;> simp

theorem strrchr_absent (s : CStr) (c : Nat) (h : c ∉ s) : strrchr s c = none := by
  induction s with
  | nil => rfl
  | cons x xs ih =>
    have hx : ¬ x = c := fun e => h (by simp [e])
    have hxs : c ∉ xs := fun e => h (by simp [e])
    simp [strrchr, ih hxs, hx]

theorem strrchr_last (dir name : CStr) (c : Nat) (h : c ∉ name) :
    strrchr (dir ++ c :: name) c = some dir.length := by
  induction dir with
  | nil => simp [strrchr, strrchr_absent name c h]
  | cons x xs ih => simp [strrchr, ih]

/-- An executable directly under the root has the empty string as its directory. -/
theorem probe_root_executable : probe 4096 (some (bytes "/crafthex")) = some [] := by
  decide

theorem bytes_empty : bytes "" = [] := rfl

theorem bytes_up : bytes "/.." = [47, 46, 46] := by decide

theorem bytes_up_up : bytes "/../.." = [47, 46, 46, 47, 46, 46] := by decide

theorem bytes_up_slash : bytes "/../" = [47, 46, 46, 47] := by decide

/-- One round of the loop over `prefixes` when neither `base` nor `candidate` nor `out`
is cut. -/
theorem resolve_exe_loop_step (PATH_MAX : Nat) (f : CStr → Bool) (d r p : CStr)
    (out_size : Nat) (ps : List CStr) (calls : List Call)
    (h1 : (joined (d ++ p) r).length < PATH_MAX)
    (h2 : (joined (d ++ p) r).length < out_size) :
    resolve_exe_loop PATH_MAX f d r out_size (p :: ps) calls
      = if f (joined (d ++ p) r) then
          ⟨1, some (joined (d ++ p) r), calls ++ [Call.access (joined (d ++ p) r)]⟩
        else resolve_exe_loop PATH_MAX f d r out_size ps
          (calls ++ [Call.access (joined (d ++ p) r)]) := by
  have hb : snprintf PATH_MAX (d ++ p) = d ++ p :=
    snprintf_fits (lt_of_le_of_lt (length_le_joined (d ++ p) r) h1)
  simp only [resolve_exe_loop, hb, path_join_fits [] (d ++ p) r PATH_MAX h1, Option.getD_some,
    snprintf_fits h2]

/-- The result of `resolve_asset_path`, apart from the queries, when nothing is cut. -/
theorem resolve_asset_path_find (PATH_MAX : Nat) (host : Host) (r old : CStr) (out_size : Nat)
    (hfit : ∀ c ∈ candidates host r, c.length < PATH_MAX ∧ c.length < out_size) :
    (resolve_asset_path PATH_MAX host (some r) (some old) out_size).ret
        = (if ((candidates host r).find? host.file_exists).isSome then 1 else 0)
      ∧ (resolve_asset_path PATH_MAX host (some r) (some old) out_size).out
        = some (((candidates host r).find? host.file_exists).getD []) := by
  obtain ⟨f, env, exe⟩ := host
  have hr : r.length < out_size := (hfit r (by simp [candidates])).2
  have hs : ¬ out_size = 0 := by omega
  simp only [resolve_asset_path, if_neg hs]
  by_cases h1 : f r = true
  · simp [h1, candidates, snprintf_fits hr]
  · have hexe : ∀ calls : List Call,
        (resolve_exe PATH_MAX ⟨f, env, exe⟩ r out_size calls).ret
          = (if ((match exe with
                  | some d => [joined d r, joined (d ++ bytes "/..") r,
                      joined (d ++ bytes "/../..") r]
                  | none => []).find? f).isSome then 1 else 0)
        ∧ (resolve_exe PATH_MAX ⟨f, env, exe⟩ r out_size calls).out
          = some (((match exe with
                  | some d => [joined d r, joined (d ++ bytes "/..") r,
                      joined (d ++ bytes "/../..") r]
                  | none => []).find? f).getD []) := by
      intro calls
      cases exe with
      | none => simp [resolve_exe]
      | some d =>
        have c1 := hfit (joined d r) (by simp [candidates])
        have c2 := hfit (joined (d ++ bytes "/..") r) (by simp [candidates])
        have c3 := hfit (joined (d ++ bytes "/../..") r) (by simp [candidates])
        have c1' : (joined (d ++ bytes "") r).length < PATH_MAX
            ∧ (joined (d ++ bytes "") r).length < out_size := by
          simpa [bytes_empty] using c1
        simp only [resolve_exe, prefixes]
        rw [resolve_exe_loop_step _ _ _ _ _ _ _ _ c1'.1 c1'.2,
          resolve_exe_loop_step _ _ _ _ _ _ _ _ c2.1 c2.2,
          resolve_exe_loop_step _ _ _ _ _ _ _ _ c3.1 c3.2]
        simp only [bytes_empty, List.append_nil, resolve_exe_loop]
        by_cases e1 : f (joined d r) = true
        · simp [e1]
        · by_cases e2 : f (joined (d ++ bytes "/..") r) = true
          · simp [e1, e2]
          · by_cases e3 : f (joined (d ++ bytes "/../..") r) = true
            · simp [e1, e2, e3]
            · simp [e1, e2, e3]
    simp only [h1]
    rcases env with _ | _ | ⟨c, cs⟩
    · have := hexe [Call.access r, Call.getenv]
      simpa [candidates, h1] using this
    · have := hexe [Call.access r, Call.getenv]
      simpa [candidates, h1] using this
    · have ce := hfit (joined (c :: cs) r) (by simp [candidates])
      simp only [path_join_fits [] (c :: cs) r PATH_MAX ce.1, Option.getD_some,
        snprintf_fits ce.2]
      by_cases e0 : f (joined (c :: cs) r) = true
      · simp [e0, candidates, h1]
      · have := hexe [Call.access r, Call.getenv, Call.access (joined (c :: cs) r)]
        simpa [candidates, h1, e0] using this

theorem accessed_append (xs ys : List Call) : accessed (xs ++ ys) = accessed xs ++ accessed ys := by
  induction xs with
  | nil => rfl
  | cons x xs ih => cases x <;> simp [accessed, ih]

theorem accessed_map_access (l : List CStr) : accessed (l.map Call.access) = l := by
  induction l with
  | nil => rfl
  | cons x xs ih => simp [accessed, ih]

/-- The loop over `prefixes` when none of its candidates exists. -/
theorem resolve_exe_loop_none (PATH_MAX : Nat) (f : CStr → Bool) (d r : CStr) (out_size : Nat)
    (ps : List CStr) (calls : List Call)
    (h : ∀ p ∈ ps,
      f ((path_join (some []) PATH_MAX (some (snprintf PATH_MAX (d ++ p))) (some r)).getD [])
        = false) :
    resolve_exe_loop PATH_MAX f d r out_size ps calls
      = ⟨0, some [], calls ++ ps.map (fun p => Call.access
          ((path_join (some []) PATH_MAX (some (snprintf PATH_MAX (d ++ p))) (some r)).getD []))⟩ := by
  induction ps generalizing calls with
  | nil => simp [resolve_exe_loop]
  | cons p ps ih =>
    have hp := h p (by simp)
    simp only [resolve_exe_loop, hp]
    rw [ih _ (fun q hq => h q (by simp [hq]))]
    simp

/-- C1: with the readability check an arbitrary predicate, the environment override an
optional string and the probe an optional directory, and with every candidate of the
resolution order shorter than `PATH_MAX` and than `out_size`, `resolve_asset_path` on a
non-NULL request returns 1 exactly when some candidate exists (and 0 otherwise), and `out`
is then the first candidate of the list that exists. In particular a request that exists
as given is returned verbatim, and when the override is unset and only
`exe_dir ++ "/../" ++ r` exists, `out` is exactly that string. -/
theorem resolve_asset_path_first_existing (PATH_MAX : Nat) (host : Host) (r old : CStr)
    (out_size : Nat)
    (hfit : ∀ c ∈ candidates host r, c.length < PATH_MAX ∧ c.length < out_size) :
    ((resolve_asset_path PATH_MAX host (some r) (some old) out_size).ret = 1
        ↔ ∃ c ∈ candidates host r, host.file_exists c = true)
    ∧ ((resolve_asset_path PATH_MAX host (some r) (some old) out_size).ret = 0
        ↔ ∀ c ∈ candidates host r, host.file_exists c = false)
    ∧ (∀ c, (candidates host r).find? host.file_exists = some c →
        (resolve_asset_path PATH_MAX host (some r) (some old) out_size).ret = 1
        ∧ (resolve_asset_path PATH_MAX host (some r) (some old) out_size).out = some c)
    ∧ (host.file_exists r = true →
        (resolve_asset_path PATH_MAX host (some r) (some old) out_size).ret = 1
        ∧ (resolve_asset_path PATH_MAX host (some r) (some old) out_size).out = some r)
    ∧ (∀ exe_dir, host.asset_root = none → host.exe_dir = some exe_dir →
        (∀ c ∈ candidates host r,
          host.file_exists c = true ↔ c = exe_dir ++ bytes "/../" ++ r) →
        (resolve_asset_path PATH_MAX host (some r) (some old) out_size).ret = 1
        ∧ (resolve_asset_path PATH_MAX host (some r) (some old) out_size).out
            = some (exe_dir ++ bytes "/../" ++ r)) := by
  obtain ⟨hret, hout⟩ := resolve_asset_path_find PATH_MAX host r old out_size hfit
  have hfound : ∀ c, (candidates host r).find? host.file_exists = some c →
      (resolve_asset_path PATH_MAX host (some r) (some old) out_size).ret = 1
      ∧ (resolve_asset_path PATH_MAX host (some r) (some old) out_size).out = some c := by
    intro c hc
    rw [hret, hout, hc]
    simp
  refine ⟨?_, ?_, hfound, ?_, ?_⟩
  · rw [hret]
    cases hf : (candidates host r).find? host.file_exists with
    | none =>
      simp only [Option.isSome_none, Bool.false_eq_true, if_false]
      rw [List.find?_eq_none] at hf
      constructor
      · intro h
        omega
      · rintro ⟨c, hc, hex⟩
        exact absurd hex (hf c hc)
    | some c =>
      simp only [Option.isSome_some, if_true, true_iff]
      exact ⟨c, List.mem_of_find?_eq_some hf, List.find?_some hf⟩
  · rw [hret]
    cases hf : (candidates host r).find? host.file_exists with
    | none =>
      simp only [Option.isSome_none, Bool.false_eq_true, if_false, true_iff]
      rw [List.find?_eq_none] at hf
      intro c hc
      simpa using hf c hc
    | some c =>
      simp only [Option.isSome_some, if_true]
      constructor
      · intro h
        omega
      · intro h
        have := h c (List.mem_of_find?_eq_some hf)
        rw [List.find?_some hf] at this
        exact absurd this (by decide)
  · intro hr
    apply hfound
    simp [candidates, hr]
  · intro d henv hexe honly
    apply hfound
    have hj : joined (d ++ bytes "/..") r = d ++ bytes "/../" ++ r := by
      rw [joined_eq, bytes_up, bytes_up_slash]
      simp
    have h0 : host.file_exists r = false := by
      have := (honly r (by simp [candidates])).not
      rw [Bool.not_eq_true] at this
      apply this.2
      intro e
      have := congrArg List.length e
      simp [bytes_up_slash] at this
      omega
    have h1 : host.file_exists (joined d r) = false := by
      have := (honly (joined d r) (by simp [candidates, hexe])).not
      rw [Bool.not_eq_true] at this
      apply this.2
      intro e
      have := congrArg List.length e
      rw [joined_eq] at this
      split at this <;> simp [bytes_up_slash] at this
      omega
    have h2 : host.file_exists (joined (d ++ bytes "/..") r) = true :=
      (honly _ (by simp [candidates, hexe])).2 hj
    rw [hj] at h2
    simp only [candidates, henv, hexe, hj]
    simp only [List.append_assoc] at h2
    simp [h0, h1, h2]

/-- C1, at a concrete host: the override is unset, the probe gives `/opt/bin`, and nothing
but `/opt/bin/../t.png` exists. -/
theorem resolve_asset_path_first_existing_witness :
    (∀ c ∈ candidates ⟨fun p => p == bytes "/opt/bin/../t.png", none, some (bytes "/opt/bin")⟩
        (bytes "t.png"), c.length < 4096 ∧ c.length < 256)
    ∧ (resolve_asset_path 4096
        ⟨fun p => p == bytes "/opt/bin/../t.png", none, some (bytes "/opt/bin")⟩
        (some (bytes "t.png")) (some []) 256).ret = 1
    ∧ (resolve_asset_path 4096
        ⟨fun p => p == bytes "/opt/bin/../t.png", none, some (bytes "/opt/bin")⟩
        (some (bytes "t.png")) (some []) 256).out
        = some (bytes "/opt/bin" ++ bytes "/../" ++ bytes "t.png") :=
  ⟨by decide,
   (resolve_asset_path_first_existing 4096
      ⟨fun p => p == bytes "/opt/bin/../t.png", none, some (bytes "/opt/bin")⟩
      (bytes "t.png") [] 256 (by decide)).2.2.2.2
     (bytes "/opt/bin") rfl rfl (by decide)⟩

/-- C2: on a request for which none of the candidates that `resolve_asset_path` builds
exists, it returns 0 and leaves the empty string in `out`, having tried every candidate
in order; on a NULL request it returns 0 at once, with `out` untouched and without a
single query of the readability check, the environment or the probe. -/
theorem resolve_asset_path_total_failure (PATH_MAX : Nat) (host : Host) (old : CStr)
    (out_size : Nat) (hsize : 0 < out_size) :
    (∀ r, (∀ c ∈ built_candidates PATH_MAX host r, host.file_exists c = false) →
        (resolve_asset_path PATH_MAX host (some r) (some old) out_size).ret = 0
        ∧ (resolve_asset_path PATH_MAX host (some r) (some old) out_size).out = some []
        ∧ accessed (resolve_asset_path PATH_MAX host (some r) (some old) out_size).calls
            = built_candidates PATH_MAX host r)
    ∧ (∀ out, resolve_asset_path PATH_MAX host none out out_size = ⟨0, out, []⟩) := by
  refine ⟨?_, fun out => rfl⟩
  intro r hnone
  obtain ⟨f, env, exe⟩ := host
  have hs : ¬ out_size = 0 := by omega
  have h1 : f r = false := hnone r (by simp [built_candidates])
  have hexe : ∀ calls : List Call,
      resolve_exe PATH_MAX ⟨f, env, exe⟩ r out_size calls
        = ⟨0, some [], calls ++ [Call.get_exe_dir] ++
            (match exe with
              | some d => prefixes.map (fun p =>
                  (path_join (some []) PATH_MAX (some (snprintf PATH_MAX (d ++ p)))
                    (some r)).getD [])
              | none => []).map Call.access⟩ := by
    intro calls
    cases exe with
    | none => simp [resolve_exe]
    | some d =>
      simp only [resolve_exe]
      rw [resolve_exe_loop_none]
      · simp
      · intro p hp
        apply hnone
        simp only [built_candidates, List.mem_append]
        right
        exact List.mem_map.2 ⟨p, hp, rfl⟩
  simp only [resolve_asset_path, if_neg hs, h1]
  rcases env with _ | _ | ⟨c, cs⟩
  · simp [hexe, accessed_append, accessed_map_access, accessed, built_candidates]
  · simp [hexe, accessed_append, accessed_map_access, accessed, built_candidates]
  · have h2 : f ((path_join (some []) PATH_MAX (some (c :: cs)) (some r)).getD []) = false :=
      hnone _ (by simp [built_candidates])
    simp [h2, hexe, accessed_append, accessed_map_access, accessed, built_candidates]

/-- C2, at a concrete host on which no file exists. -/
theorem resolve_asset_path_total_failure_witness :
    0 < 256
    ∧ (resolve_asset_path 4096 ⟨fun _ => false, some (bytes "/srv"), some (bytes "/opt/bin")⟩
        (some (bytes "t.png")) (some (bytes "junk")) 256).out = some [] :=
  ⟨by decide,
   ((resolve_asset_path_total_failure 4096
      ⟨fun _ => false, some (bytes "/srv"), some (bytes "/opt/bin")⟩ (bytes "junk") 256
      (by decide)).1 (bytes "t.png") (fun _ _ => rfl)).2.1⟩

/-- C3 as stated fails for the empty base: it does not end with `/`, and `path_join`
inserts no separator, so the result is `b` and not `"/" ++ b`. -/
theorem path_join_empty_base_counterexample :
    (bytes "").getLast? ≠ some 47
    ∧ (bytes "x").head? ≠ some 47
    ∧ path_join (some []) 16 (some (bytes "")) (some (bytes "x")) = some (bytes "x")
    ∧ path_join (some []) 16 (some (bytes "")) (some (bytes "x"))
        ≠ some (bytes "" ++ bytes "/" ++ bytes "x") := by
  decide

/-- C3, amended: into a buffer large enough to hold the result, `path_join(a, b)` yields
`a ++ b` when `a` is empty or ends with `/`, and `a ++ "/" ++ b` when `a` is non-empty
and does not end with `/`. -/
theorem path_join_one_separator (old a b : CStr) (out_size : Nat) :
    ((a = [] ∨ a.getLast? = some 47) → (a ++ b).length < out_size →
        path_join (some old) out_size (some a) (some b) = some (a ++ b))
    ∧ (a ≠ [] → a.getLast? ≠ some 47 → (a ++ [47] ++ b).length < out_size →
        path_join (some old) out_size (some a) (some b) = some (a ++ [47] ++ b)) := by
  constructor
  · intro ha hfit
    have hc : ¬ (a ≠ [] ∧ a.getLast? ≠ some 47) := by
      rintro ⟨h1, h2⟩
      rcases ha with h | h
      · exact h1 h
      · exact h2 h
    rw [path_join_eq _ _ _ _ (by omega), if_neg hc, snprintf_fits hfit]
  · intro h1 h2 hfit
    rw [path_join_eq _ _ _ _ (by omega), if_pos ⟨h1, h2⟩, snprintf_fits hfit]

/-- C3, amended, at the bases `"assets/"` and `"assets"`. -/
theorem path_join_one_separator_witness :
    path_join (some []) 64 (some (bytes "assets/")) (some (bytes "t.png"))
        = some (bytes "assets/t.png")
    ∧ path_join (some []) 64 (some (bytes "assets")) (some (bytes "t.png"))
        = some (bytes "assets/t.png") :=
  ⟨(path_join_one_separator [] (bytes "assets/") (bytes "t.png") 64).1
      (Or.inr (by decide)) (by decide),
   (path_join_one_separator [] (bytes "assets") (bytes "t.png") 64).2
      (by decide) (by decide) (by decide)⟩

theorem drop_takeWhile_length (p : Nat → Bool) (l : CStr) :
    l.drop (l.takeWhile p).length = l.dropWhile p := by
  induction l with
  | nil => rfl
  | cons x xs ih =>
    by_cases h : p x = true
    · simp [List.takeWhile_cons, List.dropWhile_cons, h, ih]
    · simp [List.takeWhile_cons, List.dropWhile_cons, h]

theorem take_takeWhile_length (p : Nat → Bool) (l : CStr) :
    l.take (l.takeWhile p).length = l.takeWhile p := by
  induction l with
  | nil => rfl
  | cons x xs ih =>
    by_cases h : p x = true
    · simp [List.takeWhile_cons, h, ih]
    · simp [List.takeWhile_cons, h]

/-- What `tokenize` computes, in terms of `takeWhile` and `dropWhile`. -/
theorem tokenize_eq (s d : CStr) :
    tokenize s d =
      if s.dropWhile (fun c => d.contains c) = [] then none
      else some ((s.dropWhile (fun c => d.contains c)).takeWhile (fun c => !d.contains c),
        (((s.dropWhile (fun c => d.contains c)).dropWhile (fun c => !d.contains c)).drop 1)) := by
  unfold tokenize strspn strcspn
  simp only [drop_takeWhile_length, take_takeWhile_length]
  split
  · rfl
  · split
    · rfl
    · rename_i h
      simp only [ne_eq, not_not] at h
      rw [h]
      rfl

/-- The shape of the input around a token: skipped delimiters, the token, and then
either the end of the input or one delimiter followed by the new `key`. -/
theorem tokenize_some {s d t k : CStr} (h : tokenize s d = some (t, k)) :
    t ≠ [] ∧ (∀ c ∈ t, d.contains c = false)
    ∧ ∃ skip : CStr, (s = skip ++ t ∧ k = []) ∨ (∃ c, s = skip ++ t ++ c :: k) := by
  rw [tokenize_eq] at h
  split at h
  · exact absurd h (by simp)
  · rename_i hne
    simp only [Option.some.injEq, Prod.mk.injEq] at h
    obtain ⟨ht, hk⟩ := h
    have hsplit := List.takeWhile_append_dropWhile (fun c => d.contains c) s
    have hsplit2 := List.takeWhile_append_dropWhile (fun c => !d.contains c)
      (s.dropWhile (fun c => d.contains c))
    rw [ht] at hsplit2
    refine ⟨?_, ?_, s.takeWhile (fun c => d.contains c), ?_⟩
    · rw [← ht]
      cases hs1 : s.dropWhile (fun c => d.contains c) with
      | nil => exact absurd hs1 hne
      | cons x xs =>
        have hx := List.head_dropWhile_not (fun c => d.contains c) s (by rw [hs1]; simp)
        simp only [hs1, List.head_cons] at hx
        simp only [List.takeWhile_cons, hx]
        simp
    · intro c hc
      rw [← ht] at hc
      have := List.mem_takeWhile_imp hc
      simpa using this
    · cases hs2 : (s.dropWhile (fun c => d.contains c)).dropWhile (fun c => !d.contains c) with
      | nil =>
        left
        rw [hs2] at hsplit2 hk
        simp only [List.append_nil] at hsplit2
        rw [← hsplit2] at hsplit
        exact ⟨hsplit.symm, by simpa using hk.symm⟩
      | cons c rest =>
        right
        rw [hs2] at hsplit2 hk
        simp only [List.drop_succ_cons, List.drop_zero] at hk
        refine ⟨c, ?_⟩
        rw [← hk, List.append_assoc, hsplit2, hsplit]

theorem tokenize_nil (d : CStr) : tokenize [] d = none := by
  rw [tokenize_eq]
  simp

theorem tokenize_key_length {s d t k : CStr} (h : tokenize s d = some (t, k)) :
    k.length < s.length := by
  obtain ⟨hne, -, skip, ⟨hs, hk⟩ | ⟨c, hs⟩⟩ := tokenize_some h
  · have : 0 < t.length := List.length_pos.2 hne
    rw [hs, hk]
    simp
    omega
  · rw [hs]
    simp
    omega

/-! ## The token lists -/

theorem tokenize_all_fuel (d : CStr) (f1 f2 : Nat) (s : CStr) (h1 : s.length < f1)
    (h2 : s.length < f2) : tokenize_all d f1 s = tokenize_all d f2 s := by
  induction f1 generalizing f2 s with
  | zero => omega
  | succ n ih =>
    cases f2 with
    | zero => omega
    | succ m =>
      simp only [tokenize_all]
      cases ht : tokenize s d with
      | none => rfl
      | some tk =>
        obtain ⟨t, k⟩ := tk
        have := tokenize_key_length ht
        simp only
        rw [ih m k (by omega) (by omega)]

theorem tokens_eq (d s : CStr) :
    tokens d s = match tokenize s d with
      | none => []
      | some (t, key) => t :: tokens d key := by
  show tokenize_all d (s.length + 1) s = _
  rw [tokenize_all]
  cases ht : tokenize s d with
  | none => rfl
  | some tk =>
    obtain ⟨t, k⟩ := tk
    have := tokenize_key_length ht
    simp only
    unfold tokens
    rw [tokenize_all_fuel d s.length (k.length + 1) k (by omega) (by omega)]

theorem tokens_nil (d : CStr) : tokens d [] = [] := by
  rw [tokens_eq, tokenize_nil]

/-- Induction along the calls of `tokenize`. -/
theorem tokens_induction (d : CStr) (P : CStr → Prop)
    (hnone : ∀ s, tokenize s d = none → P s)
    (hsome : ∀ s t k, tokenize s d = some (t, k) → P k → P s) : ∀ s, P s := by
  intro s
  generalize hn : s.length = n
  induction n using Nat.strong_induction_on generalizing s with
  | _ n ih =>
    cases ht : tokenize s d with
    | none => exact hnone s ht
    | some tk =>
      obtain ⟨t, k⟩ := tk
      exact hsome s t k ht (ih k.length (hn ▸ tokenize_key_length ht) k rfl)

/-- Every token is non-empty, free of delimiters and made of bytes of the input. -/
theorem tokens_spec (d : CStr) : ∀ s, ∀ t ∈ tokens d s,
    t ≠ [] ∧ (∀ c ∈ t, d.contains c = false) ∧ (∀ c ∈ t, c ∈ s) := by
  apply tokens_induction d
  · intro s hs t ht
    rw [tokens_eq, hs] at ht
    simp at ht
  · intro s t k hs ih u hu
    rw [tokens_eq, hs] at hu
    simp only [List.mem_cons] at hu
    obtain ⟨hne, hd, skip, ⟨hsk, hk⟩ | ⟨c, hsk⟩⟩ := tokenize_some hs
    · rcases hu with rfl | hu
      · exact ⟨hne, hd, fun c hc => by rw [hsk]; simp [hc]⟩
      · obtain ⟨a, b, c⟩ := ih u hu
        refine ⟨a, b, fun x hx => ?_⟩
        have := c x hx
        simp [hk] at this
    · rcases hu with rfl | hu
      · exact ⟨hne, hd, fun c hc => by rw [hsk]; simp [hc]⟩
      · obtain ⟨a, b, c'⟩ := ih u hu
        refine ⟨a, b, fun x hx => ?_⟩
        have := c' x hx
        rw [hsk]
        simp [this]

/-- The tokens with one separator each take at most one byte more than the input. -/
theorem total_tokens_le (d : CStr) : ∀ s, total (tokens d s) ≤ s.length + 1 := by
  apply tokens_induction d
  · intro s hs
    rw [tokens_eq, hs]
    simp [total]
  · intro s t k hs ih
    rw [tokens_eq, hs]
    simp only [total]
    obtain ⟨-, -, skip, ⟨hsk, hk⟩ | ⟨c, hsk⟩⟩ := tokenize_some hs
    · rw [hk, tokens_nil, hsk]
      simp [total]
    · rw [hsk]
      simp
      omega

/-! ## The loops of `wrap` as folds over the token lists -/

theorem wrap_tokens_eq (oob : Nat → Int) (mw ml : Int) (fuel : Nat) (key : CStr)
    (st : WrapState) (h : key.length < fuel) :
    wrap_tokens oob mw ml fuel key st
      = some ((tokens [32] key).foldl (wrap_token oob mw ml) st) := by
  induction fuel generalizing key st with
  | zero => omega
  | succ n ih =>
    rw [wrap_tokens, tokens_eq]
    cases ht : tokenize key [32] with
    | none => rfl
    | some tk =>
      obtain ⟨t, k⟩ := tk
      have := tokenize_key_length ht
      simp only [List.foldl_cons]
      exact ih k _ (by omega)

theorem wrap_lines_eq (oob : Nat → Int) (mw ml : Int) (fuel : Nat) (key : CStr)
    (line_number : Int) (output : CStr) (h : key.length < fuel) :
    wrap_lines oob mw ml fuel key line_number output
      = some ((tokens [13, 10] key).foldl (wrap_paragraph oob mw ml) (output, line_number)) := by
  induction fuel generalizing key line_number output with
  | zero => omega
  | succ n ih =>
    rw [wrap_lines, tokens_eq]
    cases ht : tokenize key [13, 10] with
    | none => rfl
    | some tk =>
      obtain ⟨t, k⟩ := tk
      have := tokenize_key_length ht
      simp only [List.foldl_cons, wrap_tokens_eq oob mw ml (t.length + 1) t _ (by omega)]
      exact ih k _ _ (by omega)

/-- The function `wrap` always returns: its result is the fold of the loop body over the
paragraphs of the input. -/
theorem wrap_eq (oob : Nat → Int) (input : CStr) (mw ml : Int) :
    wrap oob input mw ml
      = some ((paragraphs input).foldl (wrap_paragraph oob mw ml) ([], 0)) :=
  wrap_lines_eq oob mw ml (input.length + 1) input 0 [] (by omega)

/-! ## Capacity -/

theorem remaining_le (N : Int) (out : CStr) (h : (out.length : Int) + 1 ≤ N) :
    (remaining N out : Int) ≤ N - out.length - 1 := by
  unfold remaining size_t
  omega

theorem remaining_eq (N : Int) (out : CStr) (h : (out.length : Int) + 1 ≤ N)
    (hN : N < 2 ^ 64) : (remaining N out : Int) = N - out.length - 1 := by
  unfold remaining size_t
  omega

/-- A bounded append never takes the text past `N - 1` bytes. -/
theorem strncat_bound (N : Int) (out src : CStr) (h : (out.length : Int) + 1 ≤ N) :
    ((strncat out src (remaining N out)).length : Int) + 1 ≤ N := by
  have := remaining_le N out h
  unfold strncat
  simp only [List.length_append, List.length_take]
  omega

/-- A bounded append with room for the whole source is a plain append. -/
theorem strncat_fits (N : Int) (out src : CStr)
    (h : (out.length : Int) + src.length + 1 ≤ N) (hN : N < 2 ^ 64) :
    strncat out src (remaining N out) = out ++ src := by
  have := remaining_eq N out (by omega) hN
  unfold strncat
  rw [List.take_of_length_le (by omega)]

/-! ## The capacity bound -/

theorem wrap_separator_bound (oob : Nat → Int) (mw N : Int) (st : WrapState) (t : CStr)
    (h : (st.output.length : Int) + 1 ≤ N) :
    ((wrap_separator oob mw N st t).output.length : Int) + 1 ≤ N := by
  unfold wrap_separator
  simp only
  split
  · split
    · exact strncat_bound N _ _ h
    · exact strncat_bound N _ _ h
  · exact h

theorem wrap_token_bound (oob : Nat → Int) (mw N : Int) (st : WrapState) (t : CStr)
    (h : (st.output.length : Int) + 1 ≤ N) :
    ((wrap_token oob mw N st t).output.length : Int) + 1 ≤ N := by
  unfold wrap_token
  exact strncat_bound N _ _ (wrap_separator_bound oob mw N st t h)

theorem wrap_token_fold_bound (oob : Nat → Int) (mw N : Int) (ts : List CStr)
    (st : WrapState) (h : (st.output.length : Int) + 1 ≤ N) :
    (((ts.foldl (wrap_token oob mw N) st).output.length : Nat) : Int) + 1 ≤ N := by
  induction ts generalizing st with
  | nil => exact h
  | cons t ts ih => exact ih _ (wrap_token_bound oob mw N st t h)

theorem wrap_paragraph_bound (oob : Nat → Int) (mw N : Int) (acc : CStr × Int) (line : CStr)
    (h : (acc.1.length : Int) + 1 ≤ N) :
    ((wrap_paragraph oob mw N acc line).1.length : Int) + 1 ≤ N := by
  unfold wrap_paragraph
  exact strncat_bound N _ _ (wrap_token_fold_bound oob mw N _ _ h)

theorem wrap_paragraph_fold_bound (oob : Nat → Int) (mw N : Int) (ps : List CStr)
    (acc : CStr × Int) (h : (acc.1.length : Int) + 1 ≤ N) :
    (((ps.foldl (wrap_paragraph oob mw N) acc).1.length : Nat) : Int) + 1 ≤ N := by
  induction ps generalizing acc with
  | nil => exact h
  | cons p ps ih => exact ih _ (wrap_paragraph_bound oob mw N acc p h)

/-- C4 as stated fails for a capacity of 0: the count handed to `strncat` wraps around
to `2 ^ 64 - 1`, and the output `"a\n"` has 2 bytes, more than `0 - 1`. -/
theorem wrap_capacity_zero_counterexample :
    wrap (fun _ => 0) (bytes "a") 0 0 = some (bytes "a\n", 1)
    ∧ remaining 0 [] = 2 ^ 64 - 1
    ∧ ¬ (((bytes "a\n").length : Nat) : Int) ≤ 0 - 1 := by
  decide

/-- C4, amended: for every input, every `max_width` and every capacity `N ≥ 1`, `wrap`
returns and the output has at most `N - 1` bytes. -/
theorem wrap_capacity_bound (oob : Nat → Int) (input : CStr) (max_width N : Int)
    (hN : 1 ≤ N) :
    ∃ output line_count, wrap oob input max_width N = some (output, line_count)
      ∧ (output.length : Int) ≤ N - 1 := by
  refine ⟨_, _, wrap_eq oob input max_width N, ?_⟩
  have := wrap_paragraph_fold_bound oob max_width N (paragraphs input) ([], 0)
    (by simpa using hN)
  omega

/-- C4, amended, at the input `"aa bb cc"` and a capacity of 5. -/
theorem wrap_capacity_bound_witness :
    (1 : Int) ≤ 5
    ∧ ∃ output line_count,
        wrap (fun _ => 0) (bytes "aa bb cc") 30 5 = some (output, line_count)
        ∧ (output.length : Int) ≤ 5 - 1 :=
  ⟨by decide, wrap_capacity_bound (fun _ => 0) (bytes "aa bb cc") 30 5 (by decide)⟩

/-! ## With enough room the bounded appends are plain appends -/

theorem free_token_length (oob : Nat → Int) (mw : Int) (st : WrapState) (t : CStr) :
    st.output.length + t.length ≤ (free_token oob mw st t).output.length
    ∧ (free_token oob mw st t).output.length
        = st.output.length + t.length + (if st.line_width = 0 then 0 else 1) := by
  unfold free_token
  split
  · rename_i h
    split <;> simp [h] <;> omega
  · rename_i h
    simp only [ne_eq, not_not] at h
    simp [h]

theorem free_token_fold_mono (oob : Nat → Int) (mw : Int) (ts : List CStr) (st : WrapState) :
    st.output.length ≤ (ts.foldl (free_token oob mw) st).output.length := by
  induction ts generalizing st with
  | nil => exact le_refl _
  | cons t ts ih =>
    have := (free_token_length oob mw st t).1
    have := ih (free_token oob mw st t)
    simp only [List.foldl_cons]
    omega

/-- The bytes the inner loop appends: one separator per token, except for the first
token of a fresh line. -/
theorem free_token_fold_length (oob : Nat → Int) (mw : Int) (ts : List CStr)
    (st : WrapState) :
    (ts.foldl (free_token oob mw) st).output.length
        + (if st.line_width = 0 ∧ ts ≠ [] then 1 else 0)
      ≤ st.output.length + total ts := by
  induction ts generalizing st with
  | nil => simp [total]
  | cons t ts ih =>
    have h1 := (free_token_length oob mw st t).2
    have h2 := ih (free_token oob mw st t)
    simp only [List.foldl_cons, total]
    by_cases h : st.line_width = 0
    · simp only [h, if_true] at h1
      simp only [h, ne_eq, not_false_eq_true, and_self, if_true, reduceCtorEq]
      omega
    · simp only [h, if_false] at h1
      simp only [h, false_and, if_false]
      omega

theorem wrap_token_free (oob : Nat → Int) (mw N : Int) (st : WrapState) (t : CStr)
    (hN : N < 2 ^ 64) (h : ((free_token oob mw st t).output.length : Int) + 1 ≤ N) :
    wrap_token oob mw N st t = free_token oob mw st t := by
  have hl := (free_token_length oob mw st t).2
  unfold wrap_token wrap_separator free_token
  by_cases h0 : st.line_width = 0
  · simp only [h0, if_true] at hl
    simp only [h0, ne_eq, not_true_eq_false, if_false]
    rw [strncat_fits N _ _ (by omega) hN]
  · simp only [h0, if_false] at hl
    simp only [h0, ne_eq, not_false_eq_true, if_true]
    by_cases hb : st.line_width + string_width oob t > mw
    · simp only [hb, if_true]
      rw [strncat_fits N st.output [10] (by simp; omega) hN,
        strncat_fits N _ _ (by simp; omega) hN]
    · simp only [hb, if_false]
      rw [strncat_fits N st.output [32] (by simp; omega) hN,
        strncat_fits N _ _ (by simp; omega) hN]

theorem wrap_token_fold_free (oob : Nat → Int) (mw N : Int) (ts : List CStr)
    (st : WrapState) (hN : N < 2 ^ 64)
    (h : (((ts.foldl (free_token oob mw) st).output.length : Nat) : Int) + 1 ≤ N) :
    ts.foldl (wrap_token oob mw N) st = ts.foldl (free_token oob mw) st := by
  induction ts generalizing st with
  | nil => rfl
  | cons t ts ih =>
    simp only [List.foldl_cons] at h ⊢
    have := free_token_fold_mono oob mw ts (free_token oob mw st t)
    rw [wrap_token_free oob mw N st t hN (by omega)]
    exact ih _ h

theorem free_paragraph_length (oob : Nat → Int) (mw : Int) (acc : CStr × Int) (line : CStr)
    (hline : line ≠ []) :
    acc.1.length ≤ (free_paragraph oob mw acc line).1.length
    ∧ (free_paragraph oob mw acc line).1.length ≤ acc.1.length + line.length + 1 := by
  have h1 := free_token_fold_mono oob mw (words line) ⟨0, acc.2, acc.1⟩
  have h2 := free_token_fold_length oob mw (words line) ⟨0, acc.2, acc.1⟩
  have h3 : total (words line) ≤ line.length + 1 := total_tokens_le [32] line
  have h4 : 0 < line.length := List.length_pos.2 hline
  unfold free_paragraph
  simp only [List.length_append, List.length_singleton]
  simp only [true_and] at h2
  constructor
  · simp only at h1
    omega
  · by_cases hw : words line = []
    · simp only [hw, List.foldl_nil]
      omega
    · simp only [hw, ne_eq, not_false_eq_true, if_true] at h2
      omega

theorem free_paragraph_fold_mono (oob : Nat → Int) (mw : Int) (ps : List CStr)
    (acc : CStr × Int) (hps : ∀ p ∈ ps, p ≠ []) :
    acc.1.length ≤ (ps.foldl (free_paragraph oob mw) acc).1.length := by
  induction ps generalizing acc with
  | nil => exact le_refl _
  | cons p ps ih =>
    have := (free_paragraph_length oob mw acc p (hps p (by simp))).1
    have := ih (free_paragraph oob mw acc p) (fun q hq => hps q (by simp [hq]))
    simp only [List.foldl_cons]
    omega

theorem free_paragraph_fold_length (oob : Nat → Int) (mw : Int) (ps : List CStr)
    (acc : CStr × Int) (hps : ∀ p ∈ ps, p ≠ []) :
    (ps.foldl (free_paragraph oob mw) acc).1.length ≤ acc.1.length + total ps := by
  induction ps generalizing acc with
  | nil => simp [total]
  | cons p ps ih =>
    have := (free_paragraph_length oob mw acc p (hps p (by simp))).2
    have := ih (free_paragraph oob mw acc p) (fun q hq => hps q (by simp [hq]))
    simp only [List.foldl_cons, total]
    omega

theorem wrap_paragraph_free (oob : Nat → Int) (mw N : Int) (acc : CStr × Int) (line : CStr)
    (hN : N < 2 ^ 64) (h : ((free_paragraph oob mw acc line).1.length : Int) + 1 ≤ N) :
    wrap_paragraph oob mw N acc line = free_paragraph oob mw acc line := by
  unfold wrap_paragraph free_paragraph at *
  simp only [List.length_append, List.length_singleton] at h
  rw [wrap_token_fold_free oob mw N _ _ hN (by push_cast at h ⊢; omega)]
  simp only
  rw [strncat_fits N _ [10] (by push_cast at h ⊢; simp; omega) hN]

theorem wrap_paragraph_fold_free (oob : Nat → Int) (mw N : Int) (ps : List CStr)
    (acc : CStr × Int) (hN : N < 2 ^ 64) (hps : ∀ p ∈ ps, p ≠ [])
    (h : (((ps.foldl (free_paragraph oob mw) acc).1.length : Nat) : Int) + 1 ≤ N) :
    ps.foldl (wrap_paragraph oob mw N) acc = ps.foldl (free_paragraph oob mw) acc := by
  induction ps generalizing acc with
  | nil => rfl
  | cons p ps ih =>
    simp only [List.foldl_cons] at h ⊢
    have := free_paragraph_fold_mono oob mw ps (free_paragraph oob mw acc p)
      (fun q hq => hps q (by simp [hq]))
    rw [wrap_paragraph_free oob mw N acc p hN (by omega)]
    exact ih _ (fun q hq => hps q (by simp [hq])) h

theorem paragraphs_ne_nil (input : CStr) : ∀ p ∈ paragraphs input, p ≠ [] :=
  fun p hp => (tokens_spec [13, 10] input p hp).1

/-- When the untruncated output is shorter than the capacity, no append of `wrap` is cut. -/
theorem wrap_untruncated (oob : Nat → Int) (input : CStr) (mw N : Int)
    (hroom : ((untruncated oob mw input).1.length : Int) < N) (hN : N < 2 ^ 64) :
    wrap oob input mw N = some (untruncated oob mw input) := by
  rw [wrap_eq]
  unfold untruncated at hroom ⊢
  rw [wrap_paragraph_fold_free oob mw N _ _ hN (paragraphs_ne_nil input) (by omega)]

/-- The untruncated output has at most `strlen(input) + 1` bytes. -/
theorem untruncated_length_le (oob : Nat → Int) (input : CStr) (mw : Int) :
    (untruncated oob mw input).1.length ≤ input.length + 1 := by
  have h1 := free_paragraph_fold_length oob mw (paragraphs input) ([], 0)
    (paragraphs_ne_nil input)
  have h2 : total (paragraphs input) ≤ input.length + 1 := total_tokens_le [13, 10] input
  simp only [List.length_nil, zero_add] at h1
  unfold untruncated
  omega

/-- A capacity of at least `strlen(input) + 2` always exceeds the untruncated output. -/
theorem room_of_capacity (oob : Nat → Int) (input : CStr) (mw N : Int)
    (hcap : (input.length : Int) + 2 ≤ N) :
    ((untruncated oob mw input).1.length : Int) < N := by
  have := untruncated_length_le oob input mw
  omega

/-! ## Line breaks in the output -/

theorem paragraphs_no_break (input : CStr) : ∀ p ∈ paragraphs input, 10 ∉ p := by
  intro p hp h10
  have := (tokens_spec [13, 10] input p hp).2.1 10 h10
  simp at this

theorem words_no_break (line : CStr) (h : 10 ∉ line) : ∀ t ∈ words line, 10 ∉ t :=
  fun t ht h10 => h ((tokens_spec [32] line t ht).2.2 10 h10)

theorem free_token_breaks (oob : Nat → Int) (mw : Int) (st : WrapState) (t : CStr)
    (ht : 10 ∉ t) :
    (((free_token oob mw st t).output.count 10 : Nat) : Int) - st.output.count 10
      = (free_token oob mw st t).line_number - st.line_number := by
  have h0 : t.count 10 = 0 := List.count_eq_zero.2 ht
  unfold free_token
  split
  · split <;> simp [List.count_append, h0]
  · simp [List.count_append, h0]

theorem free_token_fold_breaks (oob : Nat → Int) (mw : Int) (ts : List CStr)
    (st : WrapState) (hts : ∀ t ∈ ts, 10 ∉ t) :
    ((((ts.foldl (free_token oob mw) st).output.count 10 : Nat)) : Int) - st.output.count 10
      = (ts.foldl (free_token oob mw) st).line_number - st.line_number := by
  induction ts generalizing st with
  | nil => simp
  | cons t ts ih =>
    have h1 := free_token_breaks oob mw st t (hts t (by simp))
    have h2 := ih (free_token oob mw st t) (fun u hu => hts u (by simp [hu]))
    simp only [List.foldl_cons]
    omega

theorem free_paragraph_breaks (oob : Nat → Int) (mw : Int) (acc : CStr × Int) (line : CStr)
    (h : 10 ∉ line) :
    (((free_paragraph oob mw acc line).1.count 10 : Nat) : Int) - acc.1.count 10
      = (free_paragraph oob mw acc line).2 - acc.2 := by
  have := free_token_fold_breaks oob mw (words line) ⟨0, acc.2, acc.1⟩ (words_no_break line h)
  unfold free_paragraph
  simp only [List.count_append] at this ⊢
  simp only [List.count_singleton_self]
  push_cast
  omega

theorem free_paragraph_fold_breaks (oob : Nat → Int) (mw : Int) (ps : List CStr)
    (acc : CStr × Int) (hps : ∀ p ∈ ps, 10 ∉ p) :
    ((((ps.foldl (free_paragraph oob mw) acc).1.count 10 : Nat)) : Int) - acc.1.count 10
      = (ps.foldl (free_paragraph oob mw) acc).2 - acc.2 := by
  induction ps generalizing acc with
  | nil => simp
  | cons p ps ih =>
    have h1 := free_paragraph_breaks oob mw acc p (hps p (by simp))
    have h2 := ih (free_paragraph oob mw acc p) (fun u hu => hps u (by simp [hu]))
    simp only [List.foldl_cons]
    omega

/-- C8 as stated fails when the output is cut: with a capacity of 1 the output is empty
and holds no line break, and `wrap` still returns 1. -/
theorem wrap_line_count_counterexample :
    (1 : Int) ≤ 1
    ∧ wrap (fun _ => 0) (bytes "a") 100 1 = some ([], 1)
    ∧ ([] : CStr).count 10 = 0 := by
  decide

/-- C8, amended: for every input, every `max_width` and every capacity `N` large enough
that nothing is cut, that is, greater than the length of the untruncated output (as every
`N ≥ strlen(input) + 2` is), the integer `wrap` returns is the number of line breaks
(bytes 10) in the output it produced. -/
theorem wrap_line_count (oob : Nat → Int) (input : CStr) (max_width N : Int)
    (hroom : ((untruncated oob max_width input).1.length : Int) < N) (hN : N < 2 ^ 64) :
    (∃ output line_count, wrap oob input max_width N = some (output, line_count)
      ∧ line_count = output.count 10)
    ∧ (untruncated oob max_width input).1.length ≤ input.length + 1 := by
  refine ⟨⟨_, _, wrap_untruncated oob input max_width N hroom hN, ?_⟩,
    untruncated_length_le oob input max_width⟩
  have := free_paragraph_fold_breaks oob max_width (paragraphs input) ([], 0)
    (paragraphs_no_break input)
  simp only [List.count_nil, Nat.cast_zero, sub_zero] at this
  omega

/-- C8, amended, at the input `"aa  bb  cc"` and a capacity of 10, the length of the
untruncated output `"aa bb\ncc\n"` plus one. -/
theorem wrap_line_count_witness :
    ((((untruncated (fun _ => 0) 30 (bytes "aa  bb  cc")).1.length : Nat) : Int) < 10
      ∧ (10 : Int) < 2 ^ 64)
    ∧ ∃ output line_count,
        wrap (fun _ => 0) (bytes "aa  bb  cc") 30 10 = some (output, line_count)
        ∧ line_count = output.count 10 :=
  ⟨by decide,
    (wrap_line_count (fun _ => 0) (bytes "aa  bb  cc") 30 10 (by decide) (by decide)).1⟩

/-! ## Paragraphs -/

theorem free_token_extends (oob : Nat → Int) (mw : Int) (st : WrapState) (t : CStr) :
    (∃ chunk, (free_token oob mw st t).output = st.output ++ chunk)
    ∧ st.line_number ≤ (free_token oob mw st t).line_number := by
  unfold free_token
  split
  · split
    · exact ⟨⟨[10] ++ t, by simp⟩, by simp⟩
    · exact ⟨⟨[32] ++ t, by simp⟩, by simp⟩
  · exact ⟨⟨t, rfl⟩, by simp⟩

theorem free_token_fold_extends (oob : Nat → Int) (mw : Int) (ts : List CStr)
    (st : WrapState) :
    (∃ chunk, (ts.foldl (free_token oob mw) st).output = st.output ++ chunk)
    ∧ st.line_number ≤ (ts.foldl (free_token oob mw) st).line_number := by
  induction ts generalizing st with
  | nil => exact ⟨⟨[], by simp⟩, le_refl _⟩
  | cons t ts ih =>
    obtain ⟨⟨chunk, hc⟩, hn⟩ := ih (free_token oob mw st t)
    obtain ⟨⟨sep, hs⟩, hm⟩ := free_token_extends oob mw st t
    simp only [List.foldl_cons]
    rw [hc, hs]
    exact ⟨⟨sep ++ chunk, by simp⟩, by omega⟩

theorem free_paragraph_fold_chunks (oob : Nat → Int) (mw : Int) (ps : List CStr)
    (acc : CStr × Int) :
    (∃ chunks : List CStr, chunks.length = ps.length
      ∧ (ps.foldl (free_paragraph oob mw) acc).1
          = acc.1 ++ (chunks.map (fun c => c ++ [10])).flatten)
    ∧ acc.2 + ps.length ≤ (ps.foldl (free_paragraph oob mw) acc).2 := by
  induction ps generalizing acc with
  | nil => exact ⟨⟨[], rfl, by simp⟩, by simp⟩
  | cons p ps ih =>
    obtain ⟨⟨chunks, hl, hc⟩, hn⟩ := ih (free_paragraph oob mw acc p)
    obtain ⟨⟨chunk, h1⟩, h2⟩ := free_token_fold_extends oob mw (words p) ⟨0, acc.2, acc.1⟩
    simp only [List.foldl_cons]
    refine ⟨⟨chunk :: chunks, by simp [hl], ?_⟩, ?_⟩
    · rw [hc]
      simp only [free_paragraph, h1]
      simp
    · have h3 : (free_paragraph oob mw acc p).2
          = ((words p).foldl (free_token oob mw) ⟨0, acc.2, acc.1⟩).line_number + 1 := rfl
      simp only at h2
      rw [h3] at hn
      simp only [List.length_cons]
      push_cast
      omega

theorem lookup_nonneg (c : Nat) : 0 ≤ lookup.getD c 0 := by
  have h : ∀ x ∈ lookup, (0 : Int) ≤ x := by
    unfold lookup
    simp
  rw [List.getD_eq_getElem?_getD]
  cases hc : lookup[c]? with
  | none => simp
  | some x => exact h x (List.getElem?_mem hc)

theorem char_width_nonneg (oob : Nat → Int) (c : Nat) (h : c < 128) :
    0 ≤ char_width oob c := by
  unfold char_width
  rw [if_pos h]
  exact lookup_nonneg c

theorem char_width_space (oob : Nat → Int) : char_width oob 32 = 4 := by
  unfold char_width
  rw [if_pos (by decide)]
  decide

theorem char_width_seven_bit (oob oob2 : Nat → Int) (c : Nat) (h : c < 128) :
    char_width oob c = char_width oob2 c := by
  unfold char_width
  rw [if_pos h, if_pos h]

theorem foldl_width (oob : Nat → Int) (s : CStr) (init : Int) :
    s.foldl (fun result c => result + char_width oob c) init
      = init + s.foldl (fun result c => result + char_width oob c) 0 := by
  induction s generalizing init with
  | nil => simp
  | cons c cs ih =>
    simp only [List.foldl_cons]
    rw [ih (init + char_width oob c), ih (0 + char_width oob c)]
    omega

theorem string_width_nil (oob : Nat → Int) : string_width oob [] = 0 := rfl

theorem string_width_cons (oob : Nat → Int) (c : Nat) (s : CStr) :
    string_width oob (c :: s) = char_width oob c + string_width oob s := by
  unfold string_width
  simp only [List.foldl_cons]
  rw [foldl_width]
  omega

theorem string_width_append (oob : Nat → Int) (a b : CStr) :
    string_width oob (a ++ b) = string_width oob a + string_width oob b := by
  induction a with
  | nil => simp [string_width_nil]
  | cons c cs ih =>
    simp only [List.cons_append, string_width_cons, ih]
    omega

theorem string_width_nonneg (oob : Nat → Int) (s : CStr) (h : seven_bit s) :
    0 ≤ string_width oob s := by
  induction s with
  | nil => simp [string_width_nil]
  | cons c cs ih =>
    rw [string_width_cons]
    have h1 := char_width_nonneg oob c (h c (by simp))
    have h2 := ih (fun x hx => h x (by simp [hx]))
    omega

theorem string_width_seven_bit (oob oob2 : Nat → Int) (s : CStr) (h : seven_bit s) :
    string_width oob s = string_width oob2 s := by
  induction s with
  | nil => rfl
  | cons c cs ih =>
    rw [string_width_cons, string_width_cons, ih (fun x hx => h x (by simp [hx])),
      char_width_seven_bit oob oob2 c (h c (by simp))]

/-! ## Lines -/

theorem line_text_append (cur : List CStr) (t : CStr) (h : cur ≠ []) :
    line_text (cur ++ [t]) = line_text cur ++ [32] ++ t := by
  induction cur with
  | nil => exact absurd rfl h
  | cons u us ih =>
    cases us with
    | nil => simp [line_text]
    | cons v vs =>
      have := ih (by simp)
      simp only [List.cons_append] at this ⊢
      simp only [line_text, this]
      simp

theorem line_width_of_append (oob : Nat → Int) (cur : List CStr) (t : CStr) :
    line_width_of oob (cur ++ [t])
      = line_width_of oob cur + (string_width oob t + char_width oob 32) := by
  induction cur with
  | nil => simp [line_width_of]
  | cons u us ih =>
    rw [List.cons_append, line_width_of, line_width_of, ih]
    omega

theorem line_width_of_pos (oob : Nat → Int) (cur : List CStr) (h : cur ≠ [])
    (h7 : ∀ t ∈ cur, seven_bit t) : 0 < line_width_of oob cur := by
  induction cur with
  | nil => exact absurd rfl h
  | cons u us ih =>
    have h1 := string_width_nonneg oob u (h7 u (by simp))
    have h2 := char_width_space oob
    have h3 : 0 ≤ line_width_of oob us := by
      cases us with
      | nil => simp [line_width_of]
      | cons v vs => exact le_of_lt (ih (by simp) (fun t ht => h7 t (by simp [ht])))
    simp only [line_width_of]
    omega

/-- With `k ≥ 1` tokens on the line, `line_width` is the width of the text of the line
plus one more space width. -/
theorem line_width_of_text (oob : Nat → Int) (cur : List CStr) (h : cur ≠ []) :
    line_width_of oob cur = string_width oob (line_text cur) + char_width oob 32 := by
  induction cur with
  | nil => exact absurd rfl h
  | cons u us ih =>
    cases us with
    | nil => simp [line_width_of, line_text]
    | cons v vs =>
      have := ih (by simp)
      simp only [line_width_of] at this ⊢
      simp only [line_text, string_width_append, string_width_cons, string_width_nil]
      omega

theorem render_append (a b : List (List CStr)) : render (a ++ b) = render a ++ render b := by
  induction a with
  | nil => rfl
  | cons l ls ih => simp [render, ih]

/-! ## The inner loop packs greedily -/

theorem free_token_fold_pack (oob : Nat → Int) (mw : Int) (ts cur : List CStr)
    (st : WrapState) (pre : CStr)
    (hcur : ∀ t ∈ cur, seven_bit t) (hts : ∀ t ∈ ts, seven_bit t)
    (hw : st.line_width = line_width_of oob cur)
    (ho : st.output = pre ++ line_text cur) :
    (ts.foldl (free_token oob mw) st).output ++ [10] = pre ++ render (pack oob mw cur ts)
    ∧ (ts.foldl (free_token oob mw) st).line_number + 1
        = st.line_number + (pack oob mw cur ts).length := by
  induction ts generalizing cur st pre with
  | nil => simp [pack, render, ho]
  | cons t ts ih =>
    have ht7 : seven_bit t := hts t (by simp)
    have hts' : ∀ u ∈ ts, seven_bit u := fun u hu => hts u (by simp [hu])
    simp only [List.foldl_cons]
    by_cases hc : cur = []
    · subst hc
      have hst : free_token oob mw st t
          = ⟨st.line_width + (string_width oob t + char_width oob 32), st.line_number,
              st.output ++ t⟩ := by
        unfold free_token
        simp [hw, line_width_of]
      have := ih [t] (free_token oob mw st t) pre (by simpa using ht7) hts'
        (by rw [hst, hw]; simp [line_width_of]) (by rw [hst, ho]; simp [line_text])
      rw [hst] at this ⊢
      simpa [pack] using this
    · have hpos := line_width_of_pos oob cur hc hcur
      have hne : st.line_width ≠ 0 := by omega
      by_cases hb : st.line_width + string_width oob t > mw
      · have hst : free_token oob mw st t
            = ⟨0 + (string_width oob t + char_width oob 32), st.line_number + 1,
                st.output ++ [10] ++ t⟩ := by
          unfold free_token
          simp [hne, hb]
        have := ih [t] (free_token oob mw st t) (pre ++ line_text cur ++ [10])
          (by simpa using ht7) hts'
          (by rw [hst]; simp [line_width_of]) (by rw [hst, ho]; simp [line_text])
        rw [hst] at this ⊢
        have hp : pack oob mw cur (t :: ts) = cur :: pack oob mw [t] ts := by
          rw [pack, if_pos ⟨hc, by rw [← hw]; exact hb⟩]
        rw [hp]
        simp only [render, List.length_cons]
        constructor
        · simpa using this.1
        · have := this.2
          push_cast
          simp only at this ⊢
          omega
      · have hst : free_token oob mw st t
            = ⟨st.line_width + (string_width oob t + char_width oob 32), st.line_number,
                st.output ++ [32] ++ t⟩ := by
          unfold free_token
          simp [hne, hb]
        have := ih (cur ++ [t]) (free_token oob mw st t) pre
          (by
            intro u hu
            rcases List.mem_append.1 hu with h | h
            · exact hcur u h
            · simp only [List.mem_singleton] at h
              exact h ▸ ht7)
          hts'
          (by rw [hst, line_width_of_append, hw])
          (by rw [hst, ho, line_text_append cur t hc]; simp)
        rw [hst] at this ⊢
        have hp : pack oob mw cur (t :: ts) = pack oob mw (cur ++ [t]) ts := by
          rw [pack, if_neg]
          rintro ⟨-, h⟩
          exact hb (by rw [hw]; exact h)
        rw [hp]
        exact this

theorem seven_bit_words (line : CStr) (h : seven_bit line) : ∀ t ∈ words line, seven_bit t :=
  fun t ht c hc => h c ((tokens_spec [32] line t ht).2.2 c hc)

theorem seven_bit_paragraphs (input : CStr) (h : seven_bit input) :
    ∀ p ∈ paragraphs input, seven_bit p :=
  fun p hp c hc => h c ((tokens_spec [13, 10] input p hp).2.2 c hc)

theorem free_paragraph_pack (oob : Nat → Int) (mw : Int) (acc : CStr × Int) (line : CStr)
    (h7 : seven_bit line) :
    free_paragraph oob mw acc line
      = (acc.1 ++ render (pack oob mw [] (words line)),
          acc.2 + (pack oob mw [] (words line)).length) := by
  obtain ⟨h1, h2⟩ := free_token_fold_pack oob mw (words line) [] ⟨0, acc.2, acc.1⟩ acc.1
    (by simp) (seven_bit_words line h7) rfl (by simp [line_text])
  unfold free_paragraph
  simp only at h1 h2 ⊢
  rw [h1, h2]

theorem free_paragraph_fold_pack (oob : Nat → Int) (mw : Int) (ps : List CStr)
    (acc : CStr × Int) (h7 : ∀ p ∈ ps, seven_bit p) :
    ps.foldl (free_paragraph oob mw) acc
      = (acc.1 ++ render (ps.map (fun p => pack oob mw [] (words p))).flatten,
          acc.2 + ((ps.map (fun p => pack oob mw [] (words p))).flatten.length : Nat)) := by
  induction ps generalizing acc with
  | nil => simp [render]
  | cons p ps ih =>
    simp only [List.foldl_cons]
    rw [free_paragraph_pack oob mw acc p (h7 p (by simp)),
      ih _ (fun q hq => h7 q (by simp [hq]))]
    simp only [List.map_cons, List.flatten_cons, render_append, List.length_append,
      List.append_assoc, Nat.cast_add, add_assoc]

/-- On 7-bit input the untruncated output is the text of the greedy layout and the
untruncated return value is its number of lines. -/
theorem untruncated_layout (oob : Nat → Int) (input : CStr) (mw : Int)
    (h7 : seven_bit input) :
    untruncated oob mw input
      = (render (layout oob mw input).flatten,
          (((layout oob mw input).flatten.length : Nat) : Int)) := by
  unfold untruncated
  rw [free_paragraph_fold_pack oob mw _ _ (seven_bit_paragraphs input h7)]
  simp [layout]

/-- On 7-bit input and with room for the untruncated output, the output of `wrap` is the
text of the greedy layout and the value returned is its number of lines. -/
theorem wrap_layout (oob : Nat → Int) (input : CStr) (mw N : Int) (h7 : seven_bit input)
    (hroom : ((untruncated oob mw input).1.length : Int) < N) (hN : N < 2 ^ 64) :
    wrap oob input mw N
      = some (render (layout oob mw input).flatten,
          (((layout oob mw input).flatten.length : Nat) : Int)) := by
  rw [wrap_untruncated oob input mw N hroom hN, untruncated_layout oob input mw h7]

/-! ## Properties of the greedy packing -/

theorem pack_flatten (oob : Nat → Int) (mw : Int) (ts cur : List CStr) :
    (pack oob mw cur ts).flatten = cur ++ ts := by
  induction ts generalizing cur with
  | nil => simp [pack]
  | cons t ts ih =>
    rw [pack]
    split
    · simp [ih]
    · simp [ih]

theorem pack_head (oob : Nat → Int) (mw : Int) (ts cur : List CStr) :
    ∃ more rest, pack oob mw cur ts = (cur ++ more) :: rest := by
  induction ts generalizing cur with
  | nil => exact ⟨[], [], by simp [pack]⟩
  | cons t ts ih =>
    rw [pack]
    split
    · exact ⟨[], pack oob mw [t] ts, by simp⟩
    · obtain ⟨more, rest, h⟩ := ih (cur ++ [t])
      exact ⟨t :: more, rest, by simp [h]⟩

theorem pack_ne_nil (oob : Nat → Int) (mw : Int) (ts cur : List CStr) :
    pack oob mw cur ts ≠ [] := by
  obtain ⟨more, rest, h⟩ := pack_head oob mw ts cur
  simp [h]

theorem pack_lines_ne_nil (oob : Nat → Int) (mw : Int) (ts cur : List CStr) :
    ∀ l ∈ pack oob mw cur ts, l = [] → cur = [] ∧ ts = [] := by
  induction ts generalizing cur with
  | nil =>
    intro l hl he
    simp only [pack, List.mem_singleton] at hl
    exact ⟨hl ▸ he, rfl⟩
  | cons t ts ih =>
    intro l hl he
    rw [pack] at hl
    split at hl
    · rename_i h
      rcases List.mem_cons.1 hl with rfl | hl
      · exact absurd he h.1
      · exact absurd (ih [t] l hl he).1 (by simp)
    · exact absurd (ih (cur ++ [t]) l hl he).1 (by simp)

/-- Every line of two or more tokens fits `max_width`. -/
theorem pack_fits (oob : Nat → Int) (mw : Int) (ts cur : List CStr)
    (hcur : 2 ≤ cur.length → string_width oob (line_text cur) ≤ mw) :
    ∀ l ∈ pack oob mw cur ts, 2 ≤ l.length → string_width oob (line_text l) ≤ mw := by
  induction ts generalizing cur with
  | nil =>
    intro l hl
    simp only [pack, List.mem_singleton] at hl
    exact hl ▸ hcur
  | cons t ts ih =>
    intro l hl
    rw [pack] at hl
    split at hl
    · rcases List.mem_cons.1 hl with rfl | hl
      · exact hcur
      · exact ih [t] (by simp) l hl
    · rename_i h
      refine ih (cur ++ [t]) ?_ l hl
      intro h2
      have hc : cur ≠ [] := by
        rintro rfl
        simp at h2
      have hle : ¬ line_width_of oob cur + string_width oob t > mw := fun hgt => h ⟨hc, hgt⟩
      rw [line_text_append cur t hc, string_width_append, string_width_append,
        string_width_cons, string_width_nil]
      rw [line_width_of_text oob cur hc] at hle
      omega

/-- A line break is placed before a token only when the current line followed by a
space and that token is wider than `max_width`. -/
theorem pack_breaks (oob : Nat → Int) (mw : Int) (ts cur : List CStr) :
    List.Chain' (fun l1 l2 => ∃ t rest, l2 = t :: rest
      ∧ string_width oob (line_text l1 ++ [32] ++ t) > mw) (pack oob mw cur ts) := by
  induction ts generalizing cur with
  | nil => simp [pack]
  | cons t ts ih =>
    rw [pack]
    split
    · rename_i h
      obtain ⟨more, rest, hp⟩ := pack_head oob mw ts [t]
      have := ih [t]
      rw [hp] at this ⊢
      refine List.Chain'.cons ⟨t, more, by simp, ?_⟩ this
      have := h.2
      rw [line_width_of_text oob cur h.1] at this
      rw [string_width_append, string_width_append, string_width_cons, string_width_nil]
      omega
    · exact ih (cur ++ [t])

/-- A token wider than `max_width` is alone on its line. -/
theorem pack_overflow (oob : Nat → Int) (mw : Int) (ts cur : List CStr)
    (h7c : ∀ t ∈ cur, seven_bit t) (h7 : ∀ t ∈ ts, seven_bit t)
    (hcur : ∀ t ∈ cur, string_width oob t > mw → cur = [t]) :
    ∀ l ∈ pack oob mw cur ts, ∀ t ∈ l, string_width oob t > mw → l = [t] := by
  induction ts generalizing cur with
  | nil =>
    intro l hl
    simp only [pack, List.mem_singleton] at hl
    exact hl ▸ hcur
  | cons u ts ih =>
    have hu7 : seven_bit u := h7 u (by simp)
    have hts7 : ∀ t ∈ ts, seven_bit t := fun t ht => h7 t (by simp [ht])
    intro l hl
    rw [pack] at hl
    split at hl
    · rcases List.mem_cons.1 hl with rfl | hl
      · exact hcur
      · exact ih [u] (by simpa using hu7) hts7 (by simp) l hl
    · rename_i h
      have h7c' : ∀ t ∈ cur ++ [u], seven_bit t := by
        intro t ht
        rcases List.mem_append.1 ht with h' | h'
        · exact h7c t h'
        · simp only [List.mem_singleton] at h'
          exact h' ▸ hu7
      refine ih (cur ++ [u]) h7c' hts7 ?_ l hl
      intro t ht hwide
      by_cases hc : cur = []
      · subst hc
        simp only [List.nil_append, List.mem_singleton] at ht
        simp [ht]
      · exfalso
        have hle : ¬ line_width_of oob cur + string_width oob u > mw := fun hgt => h ⟨hc, hgt⟩
        have hupos := string_width_nonneg oob u hu7
        have hsp := char_width_space oob
        have hmem : ∀ cur' : List CStr, (∀ x ∈ cur', seven_bit x) → ∀ x ∈ cur',
            string_width oob x + 4 ≤ line_width_of oob cur' := by
          intro cur' h7'
          induction cur' with
          | nil => simp
          | cons v vs ihv =>
            intro x hx
            have hv := string_width_nonneg oob v (h7' v (by simp))
            have hvs : 0 ≤ line_width_of oob vs := by
              cases vs with
              | nil => simp [line_width_of]
              | cons w ws =>
                exact le_of_lt (line_width_of_pos oob _ (by simp)
                  (fun y hy => h7' y (by simp [hy])))
            simp only [line_width_of]
            rcases List.mem_cons.1 hx with rfl | hx
            · omega
            · have := ihv (fun y hy => h7' y (by simp [hy])) x hx
              omega
        rcases List.mem_append.1 ht with h' | h'
        · have := hmem cur h7c t h'
          omega
        · simp only [List.mem_singleton] at h'
          subst h'
          have := line_width_of_pos oob cur hc h7c
          omega

/-! ## The layout of the whole input -/

theorem layout_tokens (oob : Nat → Int) (mw : Int) (input : CStr) :
    (layout oob mw input).map List.flatten = (paragraphs input).map words := by
  unfold layout
  simp [pack_flatten]

theorem layout_mem (oob : Nat → Int) (mw : Int) (input : CStr) :
    ∀ ls ∈ layout oob mw input, ∃ p ∈ paragraphs input, ls = pack oob mw [] (words p) := by
  intro ls hls
  obtain ⟨p, hp, rfl⟩ := List.mem_map.1 hls
  exact ⟨p, hp, rfl⟩

/-- The tokens on the lines of the layout are non-empty and hold no space and no line
break, so that the lines and tokens can be read back from the rendered text. -/
theorem layout_words (oob : Nat → Int) (mw : Int) (input : CStr) :
    ∀ ls ∈ layout oob mw input, ∀ l ∈ ls, ∀ t ∈ l, t ≠ [] ∧ 32 ∉ t ∧ 10 ∉ t := by
  intro ls hls l hl t ht
  obtain ⟨p, hp, rfl⟩ := layout_mem oob mw input ls hls
  have hmem : t ∈ words p := by
    have : t ∈ (pack oob mw [] (words p)).flatten := List.mem_flatten.2 ⟨l, hl, ht⟩
    simpa [pack_flatten] using this
  obtain ⟨h1, h2, -⟩ := tokens_spec [32] p t hmem
  refine ⟨h1, fun h => ?_, words_no_break p (paragraphs_no_break input p hp) t hmem⟩
  have := h2 32 h
  simp at this

theorem line_width_of_seven_bit (oob oob2 : Nat → Int) (cur : List CStr)
    (h : ∀ t ∈ cur, seven_bit t) : line_width_of oob cur = line_width_of oob2 cur := by
  induction cur with
  | nil => rfl
  | cons t ts ih =>
    simp only [line_width_of]
    rw [ih (fun u hu => h u (by simp [hu])), char_width_space, char_width_space,
      string_width_seven_bit oob oob2 t (h t (by simp))]

theorem pack_seven_bit (oob oob2 : Nat → Int) (mw : Int) (ts cur : List CStr)
    (hc : ∀ t ∈ cur, seven_bit t) (hts : ∀ t ∈ ts, seven_bit t) :
    pack oob mw cur ts = pack oob2 mw cur ts := by
  induction ts generalizing cur with
  | nil => rfl
  | cons t ts ih =>
    have ht := hts t (by simp)
    have hts' : ∀ u ∈ ts, seven_bit u := fun u hu => hts u (by simp [hu])
    have hc' : ∀ u ∈ cur ++ [t], seven_bit u := by
      intro u hu
      rcases List.mem_append.1 hu with h | h
      · exact hc u h
      · simp only [List.mem_singleton] at h
        exact h ▸ ht
    rw [pack, pack, line_width_of_seven_bit oob oob2 cur hc,
      string_width_seven_bit oob oob2 t ht, ih [t] (by simpa using ht) hts',
      ih (cur ++ [t]) hc' hts']

/-- On 7-bit input the layout does not depend on what lies outside the width table. -/
theorem layout_seven_bit (oob oob2 : Nat → Int) (mw : Int) (input : CStr)
    (h7 : seven_bit input) : layout oob mw input = layout oob2 mw input := by
  unfold layout
  apply List.map_congr_left
  intro p hp
  exact pack_seven_bit oob oob2 mw (words p) [] (by simp)
    (seven_bit_words p (seven_bit_paragraphs input h7 p hp))

theorem wrap_separator_eq (oob : Nat → Int) (mw ml : Int) (st : WrapState) (token : CStr) :
    wrap_separator oob mw ml st token
      = if st.line_width = 0 then st
        else if st.line_width + string_width oob token > mw then
          ⟨0, st.line_number + 1, strncat st.output [10] (remaining ml st.output)⟩
        else ⟨st.line_width, st.line_number, strncat st.output [32] (remaining ml st.output)⟩ := by
  unfold wrap_separator
  by_cases h : st.line_width = 0
  · simp [h]
  · simp [h]

theorem wrap_token_line_width (oob : Nat → Int) (mw ml : Int) (st : WrapState) (t : CStr) :
    (wrap_token oob mw ml st t).line_width
      = (wrap_separator oob mw ml st t).line_width
        + (string_width oob t + char_width oob 32) := rfl

/-- One token either leaves `line_number` alone and adds its width and a space width to
`line_width`, or increments `line_number`. -/
theorem wrap_token_same_line (oob : Nat → Int) (mw ml : Int) (st : WrapState) (t : CStr) :
    st.line_number ≤ (wrap_token oob mw ml st t).line_number
    ∧ ((wrap_token oob mw ml st t).line_number = st.line_number →
        (wrap_token oob mw ml st t).line_width
          = st.line_width + (string_width oob t + char_width oob 32)) := by
  have h1 : (wrap_token oob mw ml st t).line_number
      = (wrap_separator oob mw ml st t).line_number := rfl
  rw [wrap_token_line_width, h1, wrap_separator_eq]
  split
  · simp
  · split
    · simp
    · simp

theorem wrap_token_fold_same_line (oob : Nat → Int) (mw ml : Int) (ts : List CStr)
    (st : WrapState) :
    st.line_number ≤ (ts.foldl (wrap_token oob mw ml) st).line_number
    ∧ ((ts.foldl (wrap_token oob mw ml) st).line_number = st.line_number →
        (ts.foldl (wrap_token oob mw ml) st).line_width
          = st.line_width + (ts.map (string_width oob)).sum
            + (ts.length : Int) * char_width oob 32) := by
  induction ts generalizing st with
  | nil => simp
  | cons t ts ih =>
    obtain ⟨h1, h2⟩ := wrap_token_same_line oob mw ml st t
    obtain ⟨h3, h4⟩ := ih (wrap_token oob mw ml st t)
    simp only [List.foldl_cons, List.map_cons, List.sum_cons, List.length_cons]
    refine ⟨by omega, fun h => ?_⟩
    rw [h4 (by omega), h2 (by omega)]
    push_cast
    ring

theorem sum_string_width_nonneg (oob : Nat → Int) (ts : List CStr)
    (h : ∀ t ∈ ts, seven_bit t) : 0 ≤ (ts.map (string_width oob)).sum := by
  induction ts with
  | nil => simp
  | cons t ts ih =>
    have h1 := string_width_nonneg oob t (h t (by simp))
    have h2 := ih (fun u hu => h u (by simp [hu]))
    simp only [List.map_cons, List.sum_cons]
    omega

end Crafthex
